import Mathlib

/-!
# Verification of `obslint` (src/main.rs)

Shallow embedding of the core of `obslint`: a linter that extracts wikilink
targets (`[[target]]`, `[[target|alias]]`) from markdown documents, builds a
vocabulary of all targets, and reports plain-text occurrences of vocabulary
entries that a document does not itself link ("unlinked mentions").

Strings are modelled as `List Char`; byte offsets are modelled through an
explicit UTF-8 encoding into `List Nat` (each byte a `Nat < 256`), matching
Rust's `str` byte indexing.  Operations that can panic in Rust (slicing at a
non-boundary byte offset, `from_utf8(..).unwrap()`) are modelled with
`Option`/`Except`: `none` / `.error ()` is a panic.
-/

namespace Obslint

set_option maxRecDepth 65536

/-- UTF-8 encoding of one scalar value, as Rust's `char::encode_utf8` /
Lean's `String.utf8EncodeChar` produce it.  The bit-twiddling of the standard
encoders is written with `/` and `%` by powers of two (`n >>> 6 = n / 64`,
`n &&& 0x3F = n % 64`, and the tag `|||` is `+` because the operands' bits are
disjoint). -/
def utf8Bytes (c : Char) : List Nat :=
  if c.toNat < 0x80 then [c.toNat]
  else if c.toNat < 0x800 then [0xC0 + c.toNat / 64, 0x80 + c.toNat % 64]
  else if c.toNat < 0x10000 then
    [0xE0 + c.toNat / 4096, 0x80 + c.toNat / 64 % 64, 0x80 + c.toNat % 64]
  else
    [0xF0 + c.toNat / 262144, 0x80 + c.toNat / 4096 % 64,
     0x80 + c.toNat / 64 % 64, 0x80 + c.toNat % 64]

/-- Byte length of one character (Rust `char::len_utf8`). -/
def ulen (c : Char) : Nat := (utf8Bytes c).length

/-- The UTF-8 byte string of a text (Rust `str::as_bytes`). -/
def utf8Str (s : List Char) : List Nat := (s.map utf8Bytes).flatten

/-- Is `b` a UTF-8 continuation byte?  The source tests
`(b & 0b11000000) == 0b10000000`; for `b < 256` that is exactly
`0x80 ≤ b < 0xC0` (see `isCont_eq_mask`). -/
def isCont (b : Nat) : Bool := decide (0x80 ≤ b ∧ b < 0xC0)

/-- The backward walk of `char_prior_to`: starting from the byte just before
the offset (the input list is the prefix reversed, so its head is the byte at
`i - 1`), push bytes until a non-continuation byte is pushed.  Returns the
pushed bytes in push order (the source then reverses them). -/
def collectBack : List Nat → List Nat
  | [] => []
  | b :: rest => b :: (if isCont b then collectBack rest else [])

/-- Decode a byte list that is exactly the UTF-8 encoding of one scalar value;
`none` on anything else.  This models
`std::str::from_utf8(&buf).unwrap().chars().next()` applied to the backward
walk's buffer: `from_utf8` validates the whole buffer (so the `unwrap` panics
on a partial or malformed sequence, modelled by `none` here), and for a valid
buffer of the walk's shape (one lead byte followed only by continuation
bytes) the whole buffer is a single character. -/
def decodeOneChar (bs : List Nat) : Option Char :=
  match bs with
  | [b0] =>
    if b0 < 0x80 then some (Char.ofNat b0) else none
  | [b0, b1] =>
    if 0xC0 ≤ b0 ∧ b0 < 0xE0 ∧ isCont b1 then
      if 0x80 ≤ (b0 - 0xC0) * 64 + (b1 - 0x80) then
        some (Char.ofNat ((b0 - 0xC0) * 64 + (b1 - 0x80)))
      else none
    else none
  | [b0, b1, b2] =>
    if 0xE0 ≤ b0 ∧ b0 < 0xF0 ∧ isCont b1 ∧ isCont b2 then
      if 0x800 ≤ (b0 - 0xE0) * 4096 + (b1 - 0x80) * 64 + (b2 - 0x80) ∧
          ((b0 - 0xE0) * 4096 + (b1 - 0x80) * 64 + (b2 - 0x80) < 0xD800 ∨
            0xDFFF < (b0 - 0xE0) * 4096 + (b1 - 0x80) * 64 + (b2 - 0x80)) then
        some (Char.ofNat ((b0 - 0xE0) * 4096 + (b1 - 0x80) * 64 + (b2 - 0x80)))
      else none
    else none
  | [b0, b1, b2, b3] =>
    if 0xF0 ≤ b0 ∧ b0 < 0xF5 ∧ isCont b1 ∧ isCont b2 ∧ isCont b3 then
      if 0x10000 ≤ (b0 - 0xF0) * 262144 + (b1 - 0x80) * 4096 + (b2 - 0x80) * 64 + (b3 - 0x80) ∧
          (b0 - 0xF0) * 262144 + (b1 - 0x80) * 4096 + (b2 - 0x80) * 64 + (b3 - 0x80) < 0x110000 then
        some (Char.ofNat ((b0 - 0xF0) * 262144 + (b1 - 0x80) * 4096 + (b2 - 0x80) * 64 + (b3 - 0x80)))
      else none
    else none
  | _ => none

/-- `char_prior_to(i, s)` from src/main.rs: the character ending at byte
offset `i`, `none` when `i == 0` or `i` is past the end.  `.error ()` models
the panic of `from_utf8(..).unwrap()` when `i` is not a character boundary. -/
def char_prior_to (i : Nat) (s : List Char) : Except Unit (Option Char) :=
  if i > (utf8Str s).length ∨ i = 0 then .ok none
  else if ((collectBack (((utf8Str s).take i).reverse)).reverse).isEmpty then .ok none
  else
    match decodeOneChar ((collectBack (((utf8Str s).take i).reverse)).reverse) with
    | some c => .ok (some c)
    | none => .error ()

/-- Drop the first `n` bytes of a text at character granularity: `some` of the
remaining characters when `n` lands on a character boundary (Rust `&s[n..]`),
`.none` when the slice would panic (offset inside a character or past the
end). -/
def dropBytes : List Char → Nat → Option (List Char)
  | s, 0 => some s
  | [], _ + 1 => none
  | c :: cs, n + 1 => if ulen c ≤ n + 1 then dropBytes cs (n + 1 - ulen c) else none

/-- Take the first `n` bytes of a text at character granularity (`&s[..n]`),
`none` when the slice would panic. -/
def takeBytes : List Char → Nat → Option (List Char)
  | _, 0 => some []
  | [], _ + 1 => none
  | c :: cs, n + 1 =>
    if ulen c ≤ n + 1 then (takeBytes cs (n + 1 - ulen c)).map (fun t => c :: t)
    else none

/-- Rust slice `&s[a..b]`; `none` models the slicing panic (non-boundary
offset, out of range, or `a > b`). -/
def sliceBytes (s : List Char) (a b : Nat) : Option (List Char) :=
  if a ≤ b then (dropBytes s a).bind (fun t => takeBytes t (b - a)) else none

/-- `note.content[mat.end()..].chars().next()` from src/main.rs: the first
character at byte offset `b`, `.error ()` when the slice `&s[b..]` panics. -/
def char_at (b : Nat) (s : List Char) : Except Unit (Option Char) :=
  match dropBytes s b with
  | some t => .ok t.head?
  | none => .error ()

/-! ## The link extractor `wikilinks` -/

/-- The mutable locals of `wikilinks`'s scan loop (src/main.rs lines
142-147).  `stop` is the variable called `end` in the source; `links` records
the byte ranges passed to `links.insert(&s[start..end])`, in insertion
order. -/
structure WState where
  n_brackets : Nat
  in_wikilink : Bool
  in_pipe : Bool
  links : List (Nat × Nat)
  start : Nat
  stop : Nat
  deriving Repr, DecidableEq

def initW : WState := ⟨0, false, false, [], 0, 0⟩

/-- One iteration of `wikilinks`'s `for (i, c) in s.char_indices()` loop.
The `if`/`continue` chain of the source is rendered as a single decision
chain; a `[` at depth 2 or a `]` at depth 0 falls through the bracket cases
exactly as in the source. -/
def wstep (st : WState) (i : Nat) (c : Char) : WState :=
  if c == '[' && st.n_brackets == 0 then
    { st with n_brackets := 1 }
  else if c == '[' && st.n_brackets == 1 then
    { st with n_brackets := 2, in_wikilink := true, start := i + ulen c }
  else if c == ']' && st.n_brackets == 2 then
    { st with n_brackets := 1 }
  else if c == ']' && st.n_brackets == 1 then
    if st.in_wikilink then
      let e := if st.stop < st.start then i - ulen c else st.stop
      { st with n_brackets := 0, in_wikilink := false, in_pipe := false,
                stop := e, links := st.links ++ [(st.start, e)] }
    else
      { st with n_brackets := 0 }
  else if !st.in_wikilink then st
  else if c == '|' && !st.in_pipe then
    { st with in_pipe := true, stop := i }
  else st

/-- `s.char_indices()` starting at byte offset `i`. -/
def charIndicesFrom (i : Nat) : List Char → List (Nat × Char)
  | [] => []
  | c :: cs => (i, c) :: charIndicesFrom (i + ulen c) cs

/-- The byte ranges `wikilinks` inserts, in insertion order. -/
def wikilinksRanges (s : List Char) : List (Nat × Nat) :=
  ((charIndicesFrom 0 s).foldl (fun st p => wstep st p.1 p.2) initW).links

/-- Set-insertion into a duplicate-free list (models `BTreeSet::insert`;
order of the model is insertion order, membership is what the claims use). -/
def setInsert (l : List (List Char)) (t : List Char) : List (List Char) :=
  if t ∈ l then l else l ++ [t]

/-- `wikilinks(s)` from src/main.rs: the set of link targets, as the strings
obtained by slicing each recorded range out of `s`.  `none` models the panic
of `&s[start..end]` when a recorded offset is not a character boundary. -/
def wikilinks (s : List Char) : Option (List (List Char)) :=
  (wikilinksRanges s).foldlM
    (fun acc r =>
      match sliceBytes s r.1 r.2 with
      | some t => some (setInsert acc t)
      | none => none)
    []

/-! ## The multi-pattern matcher

Modelled from the spec: the matcher itself is the external `aho_corasick`
crate (built in src/main.rs lines 66-69 with
`MatchKind::LeftmostLongest`), not code of this repository.  Its contract per
the spec: "find all occurrences of any vocabulary entry within an arbitrary
text, returning start/end byte offsets, longest-match-wins at each position,
leftmost match preferred on ties"; `find_iter` yields the non-overlapping
leftmost-longest matches, scanning resumes at the end of each match.
Matching is byte-for-byte equality (case-sensitive, exact). -/

/-- Does pattern `pat` occur in the byte string `tb` at byte position `p`? -/
def matchesAt (pat tb : List Nat) (p : Nat) : Bool :=
  decide ((tb.drop p).take pat.length = pat)

/-- Length of the longest non-empty pattern matching at position `p`
(`none` if no pattern matches there).  Only non-empty patterns take part; the
program's vocabulary contains no empty entry. -/
def longestAt (pats : List (List Nat)) (tb : List Nat) (p : Nat) : Option Nat :=
  match pats with
  | [] => none
  | pat :: rest =>
    if pat.isEmpty then longestAt rest tb p
    else if matchesAt pat tb p then
      match longestAt rest tb p with
      | none => some pat.length
      | some l => some (max pat.length l)
    else longestAt rest tb p

/-- The scan loop of `find_iter`: at each position report the longest match
and resume after it, otherwise advance one byte.  `fuel` bounds the number of
loop iterations; `findIter` supplies enough fuel to visit every position. -/
def findIterGo (pats : List (List Nat)) (tb : List Nat) : Nat → Nat → List (Nat × Nat)
  | 0, _ => []
  | fuel + 1, p =>
    match longestAt pats tb p with
    | some len => (p, p + len) :: findIterGo pats tb fuel (p + len)
    | none => findIterGo pats tb fuel (p + 1)

/-- `searcher.find_iter(text)`: the non-overlapping leftmost-longest matches,
as (start, end) byte offsets. -/
def findIter (pats : List (List Nat)) (tb : List Nat) : List (Nat × Nat) :=
  findIterGo pats tb (tb.length + 1) 0

/-! ## The unlinked-mention detector (the body of the
`notes.par_iter().for_each` closure, src/main.rs lines 71-104) -/

/-- One iteration of the `for mat in searcher.find_iter(..)` loop: reject the
match if the character before its start or after its end is alphanumeric,
otherwise insert the matched substring into `found`.  `none` models a panic
(of `char_prior_to`'s unwrap or of slicing); the checks happen in source
order, so a rejection at the prior character skips the later ones.  `alnum`
abstracts Rust's `char::is_alphanumeric`. -/
def stepHit (alnum : Char → Bool) (s : List Char) (acc : List (List Char))
    (ab : Nat × Nat) : Option (List (List Char)) :=
  match char_prior_to ab.1 s with
  | .error _ => none
  | .ok pc =>
    if pc.any alnum then some acc
    else
      match char_at ab.2 s with
      | .error _ => none
      | .ok nc =>
        if nc.any alnum then some acc
        else
          match sliceBytes s ab.1 ab.2 with
          | some t => some (setInsert acc t)
          | none => none

/-- The fold of `stepHit` over a list of matches, accumulating `found`. -/
def detectFoundGo (alnum : Char → Bool) (s : List Char) :
    List (Nat × Nat) → List (List Char) → Option (List (List Char))
  | [], acc => some acc
  | ab :: rest, acc =>
    match stepHit alnum s acc ab with
    | some acc' => detectFoundGo alnum s rest acc'
    | none => none

/-- The `found` set of one document: boundary-surviving matcher hits. -/
def detectFound (alnum : Char → Bool) (pats : List (List Nat)) (s : List Char) :
    Option (List (List Char)) :=
  detectFoundGo alnum s (findIter pats (utf8Str s)) []

/-- `found.difference(links)`: the document's unlinked set. -/
def detect (alnum : Char → Bool) (pats : List (List Nat)) (s : List Char)
    (links : List (List Char)) : Option (List (List Char)) :=
  (detectFound alnum pats s).map (fun found => found.filter (fun t => decide (t ∉ links)))

/-- Did the prior-character check pass at match start `a` (no alphanumeric
character immediately before, and no panic)? -/
def priorPass (alnum : Char → Bool) (a : Nat) (s : List Char) : Bool :=
  match char_prior_to a s with
  | .ok (some c) => !alnum c
  | .ok none => true
  | .error _ => false

/-- Did the next-character check pass at match end `b`? -/
def nextPass (alnum : Char → Bool) (b : Nat) (s : List Char) : Bool :=
  match char_at b s with
  | .ok (some c) => !alnum c
  | .ok none => true
  | .error _ => false

/-- The corpus vocabulary (src/main.rs lines 60-64): union of every
document's extracted targets, empty targets filtered out, collected into a
set. -/
def allLinksOf (linkSets : List (List (List Char))) : List (List Char) :=
  (linkSets.flatten.filter (fun t => !t.isEmpty)).foldl setInsert []

/-- A document's report: `some` of its unlinked set when non-empty (a printed
line), `none` otherwise (nothing printed). -/
def emitReport (unlinked : List (List Char)) : Option (List (List Char)) :=
  if unlinked.isEmpty then none else some unlinked

/-- The whole run of `main`'s core on a corpus of document texts: extract
every document's targets, build the vocabulary and the matcher over it, then
detect each document's unlinked mentions.  Returns the per-document reports;
`none` models a panic anywhere in the run. -/
def runCorpus (alnum : Char → Bool) (docs : List (List Char)) :
    Option (List (Option (List (List Char)))) :=
  (docs.mapM wikilinks).bind (fun linkSets =>
    let pats := (allLinksOf linkSets).map utf8Str
    (docs.zip linkSets).mapM (fun dl =>
      (detect alnum pats dl.1 dl.2).map emitReport))

/-- Models Rust's `char::is_alphanumeric` on the ASCII range, where the two
agree exactly (Lean's `Char.isAlphanum` tests ASCII letters and digits).
Every character this development evaluates it on is ASCII; the general
theorems are stated for an arbitrary classifier. -/
def is_alphanumeric (c : Char) : Bool := c.isAlphanum

/-! ## Sanity checks: the repository's own test vectors
(`mod tests` of src/main.rs), plus the pipeline evaluations used below. -/

set_option maxRecDepth 4096 in
theorem isCont_eq_mask : ∀ b < 256, isCont b = decide (Nat.land b 0xC0 = 0x80) := by
  decide

example : wikilinks "hello [[world]]".data = some ["world".data] := by decide
example : wikilinks "[[hello]] [[world]]".data = some ["hello".data, "world".data] := by decide
example : wikilinks "[[hello|what]]".data = some ["hello".data] := by decide
example : wikilinks "".data = some [] := by decide
example : wikilinks "[[".data = some [] := by decide
example : wikilinks "]]".data = some [] := by decide
example : wikilinks "[hello](there)".data = some [] := by decide
example : wikilinks "[[東]]".data = some ["東".data] := by decide
example : wikilinks "[[]]".data = some [[]] := by decide
example : wikilinks "[[[x]]".data = some ["[x".data] := by decide
example : wikilinks "[[x]東]".data = none := by decide
example : wikilinks "[[hello\nworld]]".data = some ["hello\nworld".data] := by decide
example : wikilinks "[[東 hello]][[wtf]]".data = some ["東 hello".data, "wtf".data] := by decide
example :
    wikilinks "[Senior Backend Engineer – Standard](https://standard.tv/pages/senior-engineer)".data
      = some [] := by decide
/- The model keeps targets in insertion order while the source's `BTreeSet`
iterates them sorted; the sets are equal (compare the repo's `non-ascii 3`
test, which lists `{"wtf", "東"}`). -/
example : wikilinks "[[東]][[wtf]]".data = some ["東".data, "wtf".data] := by decide
example : char_prior_to 1 "hello".data = .ok (some 'h') := rfl
example : char_prior_to 0 "hello".data = .ok none := rfl
example : char_prior_to 10 "hello".data = .ok none := rfl
example : char_prior_to 3 "€10".data = .ok (some '€') := rfl
example : char_prior_to 2 "10€".data = .ok (some '0') := rfl
example : char_prior_to 10 "10€".data = .ok none := rfl

example :
    runCorpus is_alphanumeric
      ["See [[Cat]] for details.".data, "Cats are cool. [[Cat]] is a cat.".data]
      = some [none, none] := by decide

example :
    runCorpus is_alphanumeric ["[[a b]] [[b]]".data, "a b".data]
      = some [none, some ["a b".data]] := by decide

example : findIter [utf8Str "Cat".data]
    (utf8Str "Cats are cool. [[Cat]] is a cat.".data) = [(0, 3), (17, 20)] := by decide


/-! ## UTF-8 lemmas -/

theorem char_scalar_facts (c : Char) :
    c.toNat < 0xD800 ∨ (0xDFFF < c.toNat ∧ c.toNat < 0x110000) := c.valid

theorem utf8Bytes_shape (c : Char) :
    ∃ h t, utf8Bytes c = h :: t ∧ isCont h = false ∧ ∀ b ∈ t, isCont b = true := by
  unfold utf8Bytes
  by_cases h1 : c.toNat < 0x80
  · refine ⟨c.toNat, [], by rw [if_pos h1], ?_, by simp⟩
    simp only [isCont, decide_eq_false_iff_not]; omega
  · by_cases h2 : c.toNat < 0x800
    · refine ⟨0xC0 + c.toNat / 64, [0x80 + c.toNat % 64],
        by rw [if_neg h1, if_pos h2], ?_, ?_⟩
      · simp only [isCont, decide_eq_false_iff_not]; omega
      · intro b hb
        simp only [List.mem_singleton] at hb
        subst hb
        simp only [isCont, decide_eq_true_eq]
        omega
    · by_cases h3 : c.toNat < 0x10000
      · refine ⟨0xE0 + c.toNat / 4096, [0x80 + c.toNat / 64 % 64, 0x80 + c.toNat % 64],
          by rw [if_neg h1, if_neg h2, if_pos h3], ?_, ?_⟩
        · simp only [isCont, decide_eq_false_iff_not]; omega
        · intro b hb
          simp only [List.mem_cons, List.mem_singleton, List.not_mem_nil, or_false] at hb
          rcases hb with hb | hb <;> subst hb <;>
            simp only [isCont, decide_eq_true_eq] <;> omega
      · refine ⟨0xF0 + c.toNat / 262144,
          [0x80 + c.toNat / 4096 % 64, 0x80 + c.toNat / 64 % 64, 0x80 + c.toNat % 64],
          by rw [if_neg h1, if_neg h2, if_neg h3], ?_, ?_⟩
        · simp only [isCont, decide_eq_false_iff_not]; omega
        · intro b hb
          simp only [List.mem_cons, List.not_mem_nil, or_false] at hb
          rcases hb with hb | hb | hb <;> subst hb <;>
            simp only [isCont, decide_eq_true_eq] <;> omega

theorem ulen_pos (c : Char) : 1 ≤ ulen c := by
  obtain ⟨h, t, he, -, -⟩ := utf8Bytes_shape c
  simp [ulen, he]

theorem ulen_le_four (c : Char) : ulen c ≤ 4 := by
  unfold ulen utf8Bytes
  split
  · simp
  · split
    · simp
    · split <;> simp

theorem decode_utf8Bytes (c : Char) : decodeOneChar (utf8Bytes c) = some c := by
  have hv := char_scalar_facts c
  unfold utf8Bytes
  by_cases h1 : c.toNat < 0x80
  · rw [if_pos h1]
    simp only [decodeOneChar]
    rw [if_pos h1, Char.ofNat_toNat]
  · by_cases h2 : c.toNat < 0x800
    · rw [if_neg h1, if_pos h2]
      simp only [decodeOneChar]
      rw [if_pos ?side, if_pos (by omega)]
      case side =>
        refine ⟨by omega, by omega, ?_⟩
        simp only [isCont, decide_eq_true_eq]; omega
      have hn : (0xC0 + c.toNat / 64 - 0xC0) * 64 + (0x80 + c.toNat % 64 - 0x80) = c.toNat := by
        omega
      rw [hn, Char.ofNat_toNat]
    · by_cases h3 : c.toNat < 0x10000
      · rw [if_neg h1, if_neg h2, if_pos h3]
        simp only [decodeOneChar]
        have hn : (0xE0 + c.toNat / 4096 - 0xE0) * 4096 + (0x80 + c.toNat / 64 % 64 - 0x80) * 64 +
            (0x80 + c.toNat % 64 - 0x80) = c.toNat := by omega
        rw [if_pos ?side3, if_pos (by rw [hn]; omega), hn, Char.ofNat_toNat]
        case side3 =>
          refine ⟨by omega, by omega, ?_, ?_⟩ <;>
            simp only [isCont, decide_eq_true_eq] <;> omega
      · rw [if_neg h1, if_neg h2, if_neg h3]
        simp only [decodeOneChar]
        have hn : (0xF0 + c.toNat / 262144 - 0xF0) * 262144 +
            (0x80 + c.toNat / 4096 % 64 - 0x80) * 4096 +
            (0x80 + c.toNat / 64 % 64 - 0x80) * 64 + (0x80 + c.toNat % 64 - 0x80) = c.toNat := by
          omega
        rw [if_pos ?side4, if_pos (by rw [hn]; omega), hn, Char.ofNat_toNat]
        case side4 =>
          refine ⟨by omega, by omega, ?_, ?_, ?_⟩ <;>
            simp only [isCont, decide_eq_true_eq] <;> omega

theorem utf8Str_nil : utf8Str [] = [] := rfl

theorem utf8Str_cons (c : Char) (s : List Char) :
    utf8Str (c :: s) = utf8Bytes c ++ utf8Str s := by
  simp [utf8Str]

theorem utf8Str_append (xs ys : List Char) :
    utf8Str (xs ++ ys) = utf8Str xs ++ utf8Str ys := by
  simp [utf8Str]

theorem collectBack_append (l : List Nat) (h : Nat) (rest : List Nat)
    (hl : ∀ b ∈ l, isCont b = true) (hh : isCont h = false) :
    collectBack (l ++ h :: rest) = l ++ [h] := by
  induction l with
  | nil => simp [collectBack, hh]
  | cons b l ih =>
    have hb : isCont b = true := hl b (by simp)
    have ih' := ih (fun x hx => hl x (by simp [hx]))
    simp only [List.cons_append, collectBack, hb, if_true]
    rw [List.append_eq, ih']

/-- The buffer collected by `char_prior_to`'s backward walk at a character
boundary is exactly the last character's encoding. -/
theorem collectBack_at_boundary (pre : List Char) (c : Char) :
    (collectBack ((utf8Str pre ++ utf8Bytes c).reverse)).reverse = utf8Bytes c := by
  obtain ⟨h, t, he, hh, ht⟩ := utf8Bytes_shape c
  rw [he, List.reverse_append, List.reverse_cons, List.append_assoc, List.singleton_append]
  rw [collectBack_append _ _ _ (fun b hb => ht b (List.mem_reverse.mp hb)) hh]
  rw [List.reverse_append, List.reverse_reverse]
  rfl

theorem collectBack_ne_nil (b : Nat) (r : List Nat) : collectBack (b :: r) ≠ [] := by
  simp [collectBack]

/-- With `0 < i ≤` byte length, `char_prior_to` never answers `.ok none`:
the backward walk collects at least one byte, so the result is a decoded
character or the `unwrap` panic. -/
theorem char_prior_to_ne_none (s : List Char) (i : Nat)
    (h1 : i ≤ (utf8Str s).length) (h2 : i ≠ 0) :
    char_prior_to i s ≠ .ok none := by
  unfold char_prior_to
  rw [if_neg (not_or.mpr ⟨not_lt.mpr h1, h2⟩)]
  have htk : ((utf8Str s).take i).reverse ≠ [] := by
    intro hnil
    rw [List.reverse_eq_nil_iff] at hnil
    have := congrArg List.length hnil
    rw [List.length_take] at this
    simp only [List.length_nil] at this
    omega
  obtain ⟨b, Y, hbY⟩ := List.exists_cons_of_ne_nil htk
  rw [hbY]
  rw [if_neg (by simp [collectBack])]
  cases hd : decodeOneChar ((collectBack (b :: Y)).reverse) <;> simp [hd]

/-- `char_prior_to` at a character boundary: for `s = pre ++ c :: suf` and
offset `i` = byte length of `pre ++ [c]`, the walk recovers exactly `c`. -/
theorem char_prior_to_at_boundary (pre suf : List Char) (c : Char) :
    char_prior_to ((utf8Str pre).length + ulen c) (pre ++ c :: suf) = .ok (some c) := by
  have hone : 1 ≤ (utf8Bytes c).length := ulen_pos c
  have hb : utf8Str (pre ++ c :: suf) = (utf8Str pre ++ utf8Bytes c) ++ utf8Str suf := by
    rw [utf8Str_append, utf8Str_cons, List.append_assoc]
  have hlen : (utf8Str pre).length + ulen c = (utf8Str pre ++ utf8Bytes c).length := by
    simp [ulen]
  unfold char_prior_to
  rw [hb, hlen]
  rw [if_neg (by simp only [List.length_append, gt_iff_lt]; omega)]
  rw [List.take_left, collectBack_at_boundary]
  rw [if_neg (by
    obtain ⟨h, t, he, -, -⟩ := utf8Bytes_shape c
    rw [he]
    simp)]
  rw [decode_utf8Bytes]

/-! ## Detector lemmas -/

theorem setInsert_mem (l : List (List Char)) (t x : List Char) :
    x ∈ setInsert l t ↔ x ∈ l ∨ x = t := by
  unfold setInsert
  by_cases h : t ∈ l
  · rw [if_pos h]
    constructor
    · exact Or.inl
    · rintro (hx | rfl)
      · exact hx
      · exact h
  · rw [if_neg h]
    simp [List.mem_append]

theorem priorPass_of (alnum : Char → Bool) (a : Nat) (s : List Char) (pc : Option Char)
    (hp : char_prior_to a s = .ok pc) : priorPass alnum a s = !pc.any alnum := by
  unfold priorPass
  rw [hp]
  cases pc <;> simp [Option.any]

theorem nextPass_of (alnum : Char → Bool) (b : Nat) (s : List Char) (nc : Option Char)
    (hn : char_at b s = .ok nc) : nextPass alnum b s = !nc.any alnum := by
  unfold nextPass
  rw [hn]
  cases nc <;> simp [Option.any]

/-- Membership after one `stepHit`: the accumulator grows by exactly the
slices of hits that pass both boundary checks. -/
theorem stepHit_char (alnum : Char → Bool) (s : List Char) (acc acc' : List (List Char))
    (ab : Nat × Nat) (h : stepHit alnum s acc ab = some acc') (x : List Char) :
    x ∈ acc' ↔ x ∈ acc ∨ (priorPass alnum ab.1 s = true ∧ nextPass alnum ab.2 s = true ∧
      sliceBytes s ab.1 ab.2 = some x) := by
  unfold stepHit at h
  cases hp : char_prior_to ab.1 s with
  | error e => rw [hp] at h; exact absurd h (by simp)
  | ok pc =>
    rw [hp] at h
    dsimp only at h
    have hpp := priorPass_of alnum ab.1 s pc hp
    by_cases hpa : pc.any alnum = true
    · rw [if_pos hpa] at h
      injection h with h
      subst h
      rw [hpp, hpa]
      simp
    · rw [if_neg hpa] at h
      have hpa' : pc.any alnum = false := Bool.eq_false_iff.mpr hpa
      cases hn : char_at ab.2 s with
      | error e => rw [hn] at h; exact absurd h (by simp)
      | ok nc =>
        rw [hn] at h
        dsimp only at h
        have hnp := nextPass_of alnum ab.2 s nc hn
        by_cases hna : nc.any alnum = true
        · rw [if_pos hna] at h
          injection h with h
          subst h
          rw [hnp, hna]
          simp
        · rw [if_neg hna] at h
          have hna' : nc.any alnum = false := Bool.eq_false_iff.mpr hna
          cases hs : sliceBytes s ab.1 ab.2 with
          | none => rw [hs] at h; exact absurd h (by simp)
          | some t =>
            rw [hs] at h
            dsimp only at h
            injection h with h
            subst h
            rw [hpp, hnp, setInsert_mem]
            simp [hpa', hna', eq_comm]

/-- Membership in the completed `found` fold. -/
theorem detectFoundGo_char (alnum : Char → Bool) (s : List Char) (hits : List (Nat × Nat))
    (acc res : List (List Char)) (h : detectFoundGo alnum s hits acc = some res)
    (x : List Char) :
    x ∈ res ↔ x ∈ acc ∨ ∃ ab ∈ hits, priorPass alnum ab.1 s = true ∧
      nextPass alnum ab.2 s = true ∧ sliceBytes s ab.1 ab.2 = some x := by
  induction hits generalizing acc with
  | nil =>
    unfold detectFoundGo at h
    injection h with h
    subst h
    simp
  | cons ab rest ih =>
    unfold detectFoundGo at h
    cases hs : stepHit alnum s acc ab with
    | none => rw [hs] at h; exact absurd h (by simp)
    | some acc' =>
      rw [hs] at h
      dsimp only at h
      rw [ih acc' h, stepHit_char alnum s acc acc' ab hs x]
      simp only [List.mem_cons]
      constructor
      · rintro ((hx | hx) | ⟨ab', hm, hx⟩)
        · exact Or.inl hx
        · exact Or.inr ⟨ab, Or.inl rfl, hx⟩
        · exact Or.inr ⟨ab', Or.inr hm, hx⟩
      · rintro (hx | ⟨ab', hm | hm, hx⟩)
        · exact Or.inl (Or.inl hx)
        · subst hm; exact Or.inl (Or.inr hx)
        · exact Or.inr ⟨ab', hm, hx⟩

/-- Membership in a document's `found` set: exactly the boundary-surviving
matcher-hit substrings. -/
theorem detectFound_char (alnum : Char → Bool) (pats : List (List Nat)) (s : List Char)
    (found : List (List Char)) (h : detectFound alnum pats s = some found) (x : List Char) :
    x ∈ found ↔ ∃ ab ∈ findIter pats (utf8Str s), priorPass alnum ab.1 s = true ∧
      nextPass alnum ab.2 s = true ∧ sliceBytes s ab.1 ab.2 = some x := by
  rw [detectFoundGo_char alnum s _ [] found h x]
  simp

/-- Membership in a document's unlinked set: a boundary-surviving hit's
substring that is not among the document's own targets. -/
theorem detect_char (alnum : Char → Bool) (pats : List (List Nat)) (s : List Char)
    (links unlinked : List (List Char)) (h : detect alnum pats s links = some unlinked)
    (x : List Char) :
    x ∈ unlinked ↔ (∃ ab ∈ findIter pats (utf8Str s), priorPass alnum ab.1 s = true ∧
      nextPass alnum ab.2 s = true ∧ sliceBytes s ab.1 ab.2 = some x) ∧ x ∉ links := by
  unfold detect at h
  cases hf : detectFound alnum pats s with
  | none => rw [hf] at h; exact absurd h (by simp)
  | some found =>
    rw [hf] at h
    injection h with h
    subst h
    rw [List.mem_filter, detectFound_char alnum pats s found hf x]
    simp

/-! ## Matcher lemmas -/

theorem matchesAt_iff (pat tb : List Nat) (p : Nat) :
    matchesAt pat tb p = true ↔ (tb.drop p).take pat.length = pat := by
  simp [matchesAt]

theorem matchesAt_bound (pat tb : List Nat) (p : Nat)
    (h : matchesAt pat tb p = true) (hne : pat.isEmpty = false) :
    p + pat.length ≤ tb.length ∧ 1 ≤ pat.length := by
  have h1 : 1 ≤ pat.length := by
    have := List.length_pos.mpr (List.isEmpty_eq_false.mp hne)
    omega
  rw [matchesAt_iff] at h
  have hl := congrArg List.length h
  rw [List.length_take, List.length_drop] at hl
  exact ⟨by omega, h1⟩

theorem longestAt_none (pats : List (List Nat)) (tb : List Nat) (p : Nat)
    (h : longestAt pats tb p = none) :
    ∀ pat ∈ pats, pat.isEmpty = false → matchesAt pat tb p = false := by
  induction pats with
  | nil => intro pat hm; exact absurd hm (List.not_mem_nil pat)
  | cons q rest ih =>
    intro pat hm hne
    unfold longestAt at h
    by_cases hq : q.isEmpty = true
    · rw [if_pos hq] at h
      rcases List.mem_cons.mp hm with rfl | hm'
      · rw [hq] at hne; cases hne
      · exact ih h pat hm' hne
    · rw [if_neg hq] at h
      by_cases hmq : matchesAt q tb p = true
      · rw [if_pos hmq] at h
        cases hrest : longestAt rest tb p <;> rw [hrest] at h <;> simp at h
      · rw [if_neg hmq] at h
        rcases List.mem_cons.mp hm with rfl | hm'
        · exact Bool.eq_false_iff.mpr hmq
        · exact ih h pat hm' hne

theorem longestAt_some (pats : List (List Nat)) (tb : List Nat) (p : Nat) (len : Nat)
    (h : longestAt pats tb p = some len) :
    (∃ pat ∈ pats, pat.isEmpty = false ∧ matchesAt pat tb p = true ∧ pat.length = len) ∧
    ∀ pat ∈ pats, pat.isEmpty = false → matchesAt pat tb p = true → pat.length ≤ len := by
  induction pats generalizing len with
  | nil => simp [longestAt] at h
  | cons q rest ih =>
    unfold longestAt at h
    by_cases hq : q.isEmpty = true
    · rw [if_pos hq] at h
      obtain ⟨⟨pat, hm, hp1, hp2, hp3⟩, hbd⟩ := ih len h
      refine ⟨⟨pat, List.mem_cons_of_mem q hm, hp1, hp2, hp3⟩, ?_⟩
      intro pat' hm' hne' hmt'
      rcases List.mem_cons.mp hm' with rfl | hm''
      · rw [hq] at hne'; cases hne'
      · exact hbd pat' hm'' hne' hmt'
    · rw [if_neg hq] at h
      have hqne : q.isEmpty = false := Bool.eq_false_iff.mpr hq
      by_cases hmq : matchesAt q tb p = true
      · rw [if_pos hmq] at h
        cases hrest : longestAt rest tb p with
        | none =>
          rw [hrest] at h
          dsimp only at h
          injection h with h
          subst h
          refine ⟨⟨q, List.mem_cons_self q rest, hqne, hmq, rfl⟩, ?_⟩
          intro pat' hm' hne' hmt'
          rcases List.mem_cons.mp hm' with rfl | hm''
          · exact Nat.le_refl _
          · have := longestAt_none rest tb p hrest pat' hm'' hne'
            rw [this] at hmt'
            cases hmt'
        | some l =>
          rw [hrest] at h
          dsimp only at h
          injection h with h
          obtain ⟨⟨pat, hm, hp1, hp2, hp3⟩, hbd⟩ := ih l hrest
          subst h
          constructor
          · rcases Nat.le_total q.length l with hle | hle
            · exact ⟨pat, List.mem_cons_of_mem q hm, hp1, hp2, by omega⟩
            · exact ⟨q, List.mem_cons_self q rest, hqne, hmq, by omega⟩
          · intro pat' hm' hne' hmt'
            rcases List.mem_cons.mp hm' with rfl | hm''
            · exact Nat.le_max_left _ _
            · have := hbd pat' hm'' hne' hmt'
              omega
      · rw [if_neg hmq] at h
        obtain ⟨⟨pat, hm, hp1, hp2, hp3⟩, hbd⟩ := ih len h
        refine ⟨⟨pat, List.mem_cons_of_mem q hm, hp1, hp2, hp3⟩, ?_⟩
        intro pat' hm' hne' hmt'
        rcases List.mem_cons.mp hm' with rfl | hm''
        · rw [hmt'] at hmq; exact absurd rfl hmq
        · exact hbd pat' hm'' hne' hmt'

theorem longestAt_pos (pats : List (List Nat)) (tb : List Nat) (p len : Nat)
    (h : longestAt pats tb p = some len) : 1 ≤ len := by
  obtain ⟨⟨pat, -, hne, hmt, hlen⟩, -⟩ := longestAt_some pats tb p len h
  have := (matchesAt_bound pat tb p hmt hne).2
  omega

theorem findIterGo_sound (pats : List (List Nat)) (tb : List Nat) (fuel : Nat) :
    ∀ p a b, (a, b) ∈ findIterGo pats tb fuel p →
      longestAt pats tb a = some (b - a) ∧ p ≤ a ∧ a < b := by
  induction fuel with
  | zero => intro p a b hm; simp [findIterGo] at hm
  | succ fuel ih =>
    intro p a b hm
    unfold findIterGo at hm
    cases hl : longestAt pats tb p with
    | some len =>
      rw [hl] at hm
      dsimp only at hm
      have hpos : 1 ≤ len := longestAt_pos pats tb p len hl
      rcases List.mem_cons.mp hm with heq | hm'
      · have ha : a = p := congrArg Prod.fst heq
        have hb : b = p + len := congrArg Prod.snd heq
        subst ha
        subst hb
        refine ⟨?_, Nat.le_refl _, by omega⟩
        rw [show a + len - a = len by omega]
        exact hl
      · obtain ⟨hlong, hle, hab⟩ := ih (p + len) a b hm'
        exact ⟨hlong, by omega, hab⟩
    | none =>
      rw [hl] at hm
      dsimp only at hm
      obtain ⟨hlong, hle, hab⟩ := ih (p + 1) a b hm
      exact ⟨hlong, by omega, hab⟩

theorem findIterGo_complete (pats : List (List Nat)) (tb : List Nat) (fuel : Nat) :
    ∀ p q pat, p ≤ q → q < p + fuel → pat ∈ pats → pat.isEmpty = false →
      matchesAt pat tb q = true →
      ∃ ab ∈ findIterGo pats tb fuel p, ab.1 ≤ q ∧ q < ab.2 := by
  induction fuel with
  | zero => intro p q pat h1 h2 _ _ _; exact absurd h2 (by omega)
  | succ fuel ih =>
    intro p q pat h1 h2 hm hne hmt
    unfold findIterGo
    cases hl : longestAt pats tb p with
    | some len =>
      dsimp only
      have hpos : 1 ≤ len := longestAt_pos pats tb p len hl
      by_cases hq : q < p + len
      · exact ⟨(p, p + len), List.mem_cons_self _ _, h1, hq⟩
      · obtain ⟨ab, habm, hab⟩ := ih (p + len) q pat (by omega) (by omega) hm hne hmt
        exact ⟨ab, List.mem_cons_of_mem _ habm, hab⟩
    | none =>
      dsimp only
      have hqp : p ≠ q := by
        intro heq
        subst heq
        have := longestAt_none pats tb p hl pat hm hne
        rw [this] at hmt
        cases hmt
      exact ih (p + 1) q pat (by omega) (by omega) hm hne hmt

/-! ## Vocabulary lemmas -/

theorem mem_foldl_setInsert (l acc : List (List Char)) (x : List Char)
    (h : x ∈ l.foldl setInsert acc) : x ∈ acc ∨ x ∈ l := by
  induction l generalizing acc with
  | nil => exact Or.inl h
  | cons t rest ih =>
    rw [List.foldl_cons] at h
    rcases ih (setInsert acc t) h with h' | h'
    · rcases (setInsert_mem acc t x).mp h' with h'' | rfl
      · exact Or.inl h''
      · exact Or.inr (List.mem_cons_self _ _)
    · exact Or.inr (List.mem_cons_of_mem _ h')

/-- Every Vocabulary entry is non-empty: `all_links` filters with
`!l.is_empty()` before collecting. -/
theorem allLinksOf_ne_nil (linkSets : List (List (List Char))) (t : List Char)
    (h : t ∈ allLinksOf linkSets) : t ≠ [] := by
  unfold allLinksOf at h
  rcases mem_foldl_setInsert _ _ _ h with h' | h'
  · exact absurd h' (List.not_mem_nil t)
  · have h2 := (List.mem_filter.mp h').2
    have h3 : t.isEmpty = false := by
      revert h2
      cases t.isEmpty <;> simp
    exact List.isEmpty_eq_false.mp h3

/-! ## The claims -/

/-- C2: the multi-byte safety claim fails, and the spec's safety intent is
violated by the code: on the input `"[[x]東]"` the extractor records the
range (2, 6), but byte 6 falls inside the three-byte character `東` (the
source computes `end = i - 1` at the closing `]` even when the preceding
character is not the one-byte inner `]`), so `&s[start..end]` panics: the
model's slice is `none` and the whole extraction is the panic value
`none`. -/
theorem claim_C2 :
    wikilinksRanges "[[x]東]".data = [(2, 6)] ∧
    sliceBytes "[[x]東]".data 2 6 = none ∧
    wikilinks "[[x]東]".data = none :=
  ⟨by decide, by decide, by decide⟩

/-- C3 (counterexample): the extractor's per-document target set is not
empty-free — `[[]]` makes `wikilinks` insert the empty string. -/
theorem claim_C3_counterexample :
    ∃ res, wikilinks "[[]]".data = some res ∧ ([] : List Char) ∈ res :=
  ⟨[[]], by decide, by decide⟩

/-- C3 (amended): the Vocabulary handed to the matcher builder contains only
non-empty strings (the `filter` in `main` removes empty targets), but the
per-document target set returned by the link extractor may contain the empty
string: `[[]]` inserts it. -/
theorem claim_C3 :
    wikilinks "[[]]".data = some [([] : List Char)] ∧
    ∀ (linkSets : List (List (List Char))) (t : List Char),
      t ∈ allLinksOf linkSets → t ≠ [] :=
  ⟨by decide, allLinksOf_ne_nil⟩

theorem claim_C3_witness :
    "a".data ∈ allLinksOf [["a".data]] ∧ "a".data ≠ [] :=
  ⟨by decide, claim_C3.2 [["a".data]] "a".data (by decide)⟩

/-- C4: the link extractor agrees with the spec's literal vectors:
`"hello [[world]]"` yields `{"world"}`; a text with links `[[hello]]` and
`[[world]]` yields both; plain text, the empty string, a bare `[[`, a bare
`]]`, and a single-bracket hyperlink `[text](url)` all yield the empty
set. -/
theorem claim_C4 :
    wikilinks "hello [[world]]".data = some ["world".data] ∧
    wikilinks "[[hello]] [[world]]".data = some ["hello".data, "world".data] ∧
    wikilinks "hello world 2".data = some [] ∧
    wikilinks "".data = some [] ∧
    wikilinks "[[".data = some [] ∧
    wikilinks "]]".data = some [] ∧
    wikilinks "[text](url)".data = some [] :=
  ⟨by decide, by decide, by decide, by decide, by decide, by decide, by decide⟩

/-- C5: pipe (alias) stripping: only the text before the first pipe is the
target — `[[hello|what]]` yields `"hello"`, repeated pipes
(`[[Foo|Bar|Baz]]`) still yield `"Foo"`, and an empty alias (`[[Foo|]]`)
yields `"Foo"`. -/
theorem claim_C5 :
    wikilinks "[[hello|what]]".data = some ["hello".data] ∧
    wikilinks "[[Foo|Bar|Baz]]".data = some ["Foo".data] ∧
    wikilinks "[[Foo|]]".data = some ["Foo".data] :=
  ⟨by decide, by decide, by decide⟩

/-- C9: the cross-document scenario: with A = `"See [[Cat]] for details."`
and B = `"Cats are cool. [[Cat]] is a cat."`, the Vocabulary is `{"Cat"}`
and B yields no report: the hit at `"Cats"` (bytes 0-3) is rejected by the
next-character check (`'s'` is alphanumeric), the lowercase `"cat"` never
matches case-sensitively (no hit beyond byte 20), and the surviving hit
inside `[[Cat]]` (bytes 17-20) is removed by the set difference against B's
own target `"Cat"`. -/
theorem claim_C9 :
    wikilinks "See [[Cat]] for details.".data = some ["Cat".data] ∧
    wikilinks "Cats are cool. [[Cat]] is a cat.".data = some ["Cat".data] ∧
    allLinksOf [["Cat".data], ["Cat".data]] = ["Cat".data] ∧
    findIter [utf8Str "Cat".data] (utf8Str "Cats are cool. [[Cat]] is a cat.".data)
      = [(0, 3), (17, 20)] ∧
    char_at 3 "Cats are cool. [[Cat]] is a cat.".data = .ok (some 's') ∧
    is_alphanumeric 's' = true ∧
    runCorpus is_alphanumeric
      ["See [[Cat]] for details.".data, "Cats are cool. [[Cat]] is a cat.".data]
      = some [none, none] :=
  ⟨by decide, by decide, by decide, by decide, rfl, by decide, by decide⟩

/-- C10: bracket depth is capped at 2: a `[` read at depth 2 falls through
every case of the scanner (it neither changes the state nor the depth) and
so stays part of the scanned target text; concretely
`wikilinks "[[[x]]" = {"[x"}`. -/
theorem claim_C10 :
    (∀ (st : WState) (i : Nat), st.n_brackets = 2 → wstep st i '[' = st) ∧
    wikilinks "[[[x]]".data = some ["[x".data] := by
  constructor
  · intro st i h
    simp [wstep, h]
  · decide

theorem claim_C10_witness :
    (⟨2, true, false, [], 2, 0⟩ : WState).n_brackets = 2 ∧
    wstep ⟨2, true, false, [], 2, 0⟩ 5 '[' = ⟨2, true, false, [], 2, 0⟩ :=
  ⟨rfl, claim_C10.1 ⟨2, true, false, [], 2, 0⟩ 5 rfl⟩

/-- C1 (counterexample): the claim's second half fails as stated.  Corpus:
A = `"[[a b]] [[b]]"` (declares `"a b"` and `"b"`), B = `"a b"`.  The
vocabulary entry `"b"` occurs in B at bytes 2-3 with a space before it and
nothing after, and B declares no targets — yet B's unlinked set is
`{"a b"}` and does not contain `"b"`: the non-overlapping leftmost-longest
matcher consumed bytes 0-3 with the longer entry `"a b"`, so the occurrence
of `"b"` is never a hit. -/
theorem claim_C1_counterexample :
    "b".data ∈ allLinksOf [["a b".data, "b".data], []] ∧
    wikilinks "[[a b]] [[b]]".data = some ["a b".data, "b".data] ∧
    wikilinks "a b".data = some [] ∧
    priorPass is_alphanumeric 2 "a b".data = true ∧
    nextPass is_alphanumeric 3 "a b".data = true ∧
    sliceBytes "a b".data 2 3 = some "b".data ∧
    detect is_alphanumeric ((allLinksOf [["a b".data, "b".data], []]).map utf8Str)
      "a b".data [] = some ["a b".data] ∧
    "b".data ∉ ["a b".data] :=
  ⟨by decide, by decide, by decide, by decide, by decide, by decide, by decide, by decide⟩

/-- C1 (amended): word-boundary filtering, for the occurrences the matcher
reports.  For every document, a string `T` is in the unlinked set exactly
when some reported hit slices to `T` with no alphanumeric character
immediately before its start or after its end (so a hit with an alphanumeric
neighbour is rejected and contributes nothing), and `T` is not among the
document's declared targets.  The amendment restricts the claim's
"must appear" half to occurrences that are hits of the non-overlapping
leftmost-longest matcher — an occurrence shadowed by an overlapping longer
match is never tested (see `claim_C1_counterexample`). -/
theorem claim_C1 (alnum : Char → Bool) (pats : List (List Nat)) (s : List Char)
    (links unlinked : List (List Char)) (h : detect alnum pats s links = some unlinked)
    (T : List Char) :
    T ∈ unlinked ↔ (∃ ab ∈ findIter pats (utf8Str s),
      priorPass alnum ab.1 s = true ∧ nextPass alnum ab.2 s = true ∧
      sliceBytes s ab.1 ab.2 = some T) ∧ T ∉ links :=
  detect_char alnum pats s links unlinked h T

theorem claim_C1_witness :
    detect is_alphanumeric [utf8Str "b".data] "a b".data [] = some ["b".data] ∧
    ("b".data ∈ ["b".data] ↔ (∃ ab ∈ findIter [utf8Str "b".data] (utf8Str "a b".data),
      priorPass is_alphanumeric ab.1 "a b".data = true ∧
      nextPass is_alphanumeric ab.2 "a b".data = true ∧
      sliceBytes "a b".data ab.1 ab.2 = some "b".data) ∧
      "b".data ∉ ([] : List (List Char))) :=
  ⟨by decide,
   claim_C1 is_alphanumeric [utf8Str "b".data] "a b".data [] ["b".data] (by decide) "b".data⟩

/-- C6: for every document, the unlinked set is the set difference of the
boundary-surviving matcher-hit substrings (`found`) and the document's own
declared targets; hence every unlinked string is the slice of some raw
matcher hit, the unlinked set is disjoint from the declared targets, and a
report is emitted exactly when the difference is non-empty. -/
theorem claim_C6 (alnum : Char → Bool) (pats : List (List Nat)) (s : List Char)
    (links unlinked : List (List Char)) (h : detect alnum pats s links = some unlinked) :
    (∃ found, detectFound alnum pats s = some found ∧
      unlinked = found.filter (fun t => decide (t ∉ links))) ∧
    (∀ T ∈ unlinked, ∃ ab ∈ findIter pats (utf8Str s), sliceBytes s ab.1 ab.2 = some T) ∧
    (∀ T ∈ unlinked, T ∉ links) ∧
    (emitReport unlinked = none ↔ unlinked = []) := by
  refine ⟨?_, ?_, ?_, ?_⟩
  · unfold detect at h
    cases hf : detectFound alnum pats s with
    | none => rw [hf] at h; exact absurd h (by simp)
    | some found =>
      rw [hf] at h
      injection h with h
      exact ⟨found, rfl, h.symm⟩
  · intro T hT
    obtain ⟨⟨ab, habm, -, -, hsl⟩, -⟩ := (detect_char alnum pats s links unlinked h T).mp hT
    exact ⟨ab, habm, hsl⟩
  · intro T hT
    exact ((detect_char alnum pats s links unlinked h T).mp hT).2
  · unfold emitReport
    by_cases he : unlinked.isEmpty = true
    · rw [if_pos he]
      simp [List.isEmpty_eq_true.mp he]
    · rw [if_neg he]
      have h2 : unlinked.isEmpty = false := by
        revert he
        cases unlinked.isEmpty <;> simp
      simp [List.isEmpty_eq_false.mp h2]

theorem claim_C6_witness :
    detect is_alphanumeric [utf8Str "b".data] "b".data [] = some ["b".data] ∧
    ((∃ found, detectFound is_alphanumeric [utf8Str "b".data] "b".data = some found ∧
       ["b".data] = found.filter (fun t => decide (t ∉ ([] : List (List Char))))) ∧
     (∀ T ∈ ["b".data], ∃ ab ∈ findIter [utf8Str "b".data] (utf8Str "b".data),
        sliceBytes "b".data ab.1 ab.2 = some T) ∧
     (∀ T ∈ ["b".data], T ∉ ([] : List (List Char))) ∧
     (emitReport ["b".data] = none ↔ ["b".data] = ([] : List (List Char)))) :=
  ⟨by decide, claim_C6 is_alphanumeric [utf8Str "b".data] "b".data [] ["b".data] (by decide)⟩

/-- C7: the matcher over the vocabulary performs case-sensitive exact
substring search with non-overlapping leftmost-longest semantics: every
reported (start, end) pair slices the text to a vocabulary entry
byte-for-byte, no vocabulary entry matching at the same start is longer than
the reported one, and every position where some vocabulary entry matches is
covered by a reported match whose start is at or before it (so the earliest
candidate always wins).  (The matcher is the external `aho_corasick` crate;
it is modelled here from its documented contract as restated by the
spec.) -/
theorem claim_C7 (pats : List (List Nat)) (tb : List Nat) :
    (∀ a b, (a, b) ∈ findIter pats tb →
      a < b ∧ b ≤ tb.length ∧ (tb.drop a).take (b - a) ∈ pats ∧
      ∀ pat ∈ pats, pat.isEmpty = false → matchesAt pat tb a = true →
        pat.length ≤ b - a) ∧
    (∀ q pat, pat ∈ pats → pat.isEmpty = false → matchesAt pat tb q = true →
      ∃ ab ∈ findIter pats tb, ab.1 ≤ q ∧ q < ab.2) := by
  constructor
  · intro a b hm
    obtain ⟨hlong, -, hab⟩ := findIterGo_sound pats tb (tb.length + 1) 0 a b hm
    obtain ⟨⟨pat, hpm, hne, hmt, hlen⟩, hbd⟩ := longestAt_some pats tb a (b - a) hlong
    obtain ⟨hbound, hpos⟩ := matchesAt_bound pat tb a hmt hne
    refine ⟨hab, by omega, ?_, hbd⟩
    rw [← hlen, (matchesAt_iff pat tb a).mp hmt]
    exact hpm
  · intro q pat hm hne hmt
    obtain ⟨hbound, hpos⟩ := matchesAt_bound pat tb q hmt hne
    exact findIterGo_complete pats tb (tb.length + 1) 0 q pat (by omega) (by omega) hm hne hmt

theorem claim_C7_witness :
    ((0, 2) ∈ findIter [[97, 98], [98]] [97, 98, 98]) ∧
    (0 < 2 ∧ 2 ≤ ([97, 98, 98] : List Nat).length ∧
      (([97, 98, 98] : List Nat).drop 0).take (2 - 0) ∈ [[97, 98], [98]] ∧
      ∀ pat ∈ [[97, 98], [98]], pat.isEmpty = false →
        matchesAt pat [97, 98, 98] 0 = true → pat.length ≤ 2 - 0) :=
  ⟨by decide, (claim_C7 [[97, 98], [98]] [97, 98, 98]).1 0 2 (by decide)⟩

/-- C8: the boundary-classifier contract.  `char_prior_to i s` answers
`.ok none` exactly when `i = 0` or `i` exceeds the byte length of `s`;
and at every character boundary `0 < i ≤` length (`s = pre ++ c :: suf`
with `i` the byte length of `pre ++ [c]`) it returns exactly the character
`c` ending at `i`, its backward walk having stepped over at most 4
bytes. -/
theorem claim_C8 :
    (∀ (s : List Char) (i : Nat),
      char_prior_to i s = .ok none ↔ (i = 0 ∨ (utf8Str s).length < i)) ∧
    (∀ (pre suf : List Char) (c : Char),
      char_prior_to ((utf8Str pre).length + ulen c) (pre ++ c :: suf) = .ok (some c) ∧
      (collectBack ((utf8Str (pre ++ [c])).reverse)).length ≤ 4) := by
  constructor
  · intro s i
    constructor
    · intro h
      by_contra hc
      push_neg at hc
      exact char_prior_to_ne_none s i (by omega) (by omega) h
    · intro h
      unfold char_prior_to
      rw [if_pos (by tauto)]
  · intro pre suf c
    refine ⟨char_prior_to_at_boundary pre suf c, ?_⟩
    have h4 : utf8Str (pre ++ [c]) = utf8Str pre ++ utf8Bytes c := by
      rw [utf8Str_append, utf8Str_cons, utf8Str_nil, List.append_nil]
    rw [h4]
    have hcb := congrArg List.length (collectBack_at_boundary pre c)
    rw [List.length_reverse] at hcb
    have hle : (utf8Bytes c).length ≤ 4 := ulen_le_four c
    omega

end Obslint
